import Mathlib

/-!
Verification development for the PyChunkedGraph repository
(`pychunkedgraph/backend/cutting.py` and
`pychunkedgraph/app/segmentation/common.py`).

Node identifiers are 64-bit unsigned integers in the source; they are only
compared, sorted and stored here, never subjected to wrapping arithmetic, so
they are modelled as `ℕ`.  Affinities are 32-bit floats in the source whose
only inspected structure is "is it `+∞`?" and the comparisons performed by the
max-flow routine; they are modelled as an inductive with an `inf` constructor
and exact rationals for the finite values.
-/

/-- An affinity value: `+∞` (a cross-chunk edge marker) or a finite value. -/
inductive Aff where
  | inf : Aff
  | fin : ℚ → Aff
deriving DecidableEq

/-- `np.isinf(aff)` for a (non-negative) affinity. -/
def Aff.isInf : Aff → Bool
  | .inf => true
  | .fin _ => false

/-- The finite value carried by an affinity.  Cross-chunk (`inf`) affinities
are filtered out before any code reads a capacity, so the value returned for
`inf` is irrelevant. -/
def Aff.finVal : Aff → ℚ
  | .inf => 0
  | .fin q => q

/-- `float_max = np.finfo(np.float32).max` (cutting.py line 10): the largest
finite 32-bit float, `(2 - 2⁻²³)·2¹²⁷ = 2¹²⁸ - 2¹⁰⁴`, as an exact rational. -/
def float_max : ℚ := 340282346638528859811704183484516925440

/-! ### Undirected graphs given by edge lists, and connected components

`networkx.Graph.add_edges_from` followed by `networkx.connected_components`
is modelled by an executable union of components: edges are folded into a
list of pairwise-disjoint node groups.  The lemmas below characterise the
result in terms of reflexive-transitive reachability along the edge list,
so that theorems about the source can be stated against genuine
connectivity rather than against the implementation of the fold. -/

/-- Adjacency in the undirected graph described by the edge list `es`. -/
def adjIn (es : List (ℕ × ℕ)) (a b : ℕ) : Prop := (a, b) ∈ es ∨ (b, a) ∈ es

/-- Connectivity (reachability) in the undirected graph `es`. -/
def connIn (es : List (ℕ × ℕ)) : ℕ → ℕ → Prop := Relation.ReflTransGen (adjIn es)

/-- `a` is a node of the graph `es`, i.e. an endpoint of some edge. -/
def touchesIn (es : List (ℕ × ℕ)) (a : ℕ) : Prop := ∃ b, adjIn es a b

/-- Fold step of the connected-components computation: absorb the edge
`(u, v)` into the current list of components, merging every component that
meets `u` or `v` with the two endpoints into a single deduplicated group. -/
def addEdgeCC (cs : List (List ℕ)) (u v : ℕ) : List (List ℕ) :=
  (u :: v :: (cs.filter (fun c => decide (u ∈ c) || decide (v ∈ c))).flatten).dedup
    :: cs.filter (fun c => !(decide (u ∈ c) || decide (v ∈ c)))

/-- Connected components (as lists of nodes) of the undirected graph whose
edges are `es`; only endpoints of edges are nodes, as with
`nx.Graph.add_edges_from`. -/
def components (es : List (ℕ × ℕ)) : List (List ℕ) :=
  es.foldl (fun cs e => addEdgeCC cs e.1 e.2) []

/-- Invariant tying a component list to the edge list it was computed from. -/
structure CCOk (es : List (ℕ × ℕ)) (cs : List (List ℕ)) : Prop where
  nonempty : ∀ c ∈ cs, c ≠ []
  nodup : ∀ c ∈ cs, c.Nodup
  disj : List.Pairwise List.Disjoint cs
  sound : ∀ c ∈ cs, ∀ a ∈ c, ∀ b ∈ c, connIn es a b
  cover : ∀ p ∈ es, ∃ c ∈ cs, p.1 ∈ c ∧ p.2 ∈ c
  touch : ∀ c ∈ cs, ∀ a ∈ c, touchesIn es a

/-! ### `merge_cross_chunk_edges` (cutting.py lines 13-56) -/

/-- `np.min(nodes)` for a node group (groups are always nonempty). -/
def listMin : List ℕ → ℕ
  | [] => 0
  | x :: xs => xs.foldl Nat.min x

/-- The cross-chunk edges: `edges[np.isinf(affs)]` (affinities are paired with
edges positionally). -/
def crossPairs (edges : List (ℕ × ℕ)) (affs : List Aff) : List (ℕ × ℕ) :=
  ((edges.zip affs).filter (fun p => p.2.isInf)).map Prod.fst

/-- The weighted (non-cross) edges with their affinities:
`edges[~mask]`, `affs[~mask]`. -/
def weightedPairs (edges : List (ℕ × ℕ)) (affs : List Aff) : List ((ℕ × ℕ) × Aff) :=
  (edges.zip affs).filter (fun p => !p.2.isInf)

/-- All node ids occurring in the input edges (`np.unique(edges)` up to order
and multiplicity). -/
def edgeNodes (edges : List (ℕ × ℕ)) : List ℕ :=
  edges.flatMap (fun e => [e.1, e.2])

/-- `n` is a node of the cross-chunk graph, i.e. an endpoint of some
infinite-affinity edge. -/
def crossNode (edges : List (ℕ × ℕ)) (affs : List Aff) (n : ℕ) : Prop :=
  touchesIn (crossPairs edges affs) n

/-- Connectivity in the cross-chunk graph. -/
def crossConn (edges : List (ℕ × ℕ)) (affs : List Aff) (a b : ℕ) : Prop :=
  connIn (crossPairs edges affs) a b

/-- The `node → representative` mapping array built by
`merge_cross_chunk_edges` (cutting.py lines 28-47): one `(node, min of its
cross component)` row per cross-chunk node, then one `(node, node)` row for
every other node seen in the edges.  The membership test against `mapping`
mirrors `np.in1d(u_nodes, mapping)`, which flattens both columns. -/
def buildMapping (edges : List (ℕ × ℕ)) (affs : List Aff) : List (ℕ × ℕ) :=
  let ccs := components (crossPairs edges affs)
  let mapped := ccs.flatMap (fun cc => cc.map (fun n => (n, listMin cc)))
  let unmapped := (edgeNodes edges).dedup.filter
    (fun n => !(mapped.any (fun p => decide (p.1 = n) || decide (p.2 = n))))
  mapped ++ unmapped.map (fun n => (n, n))

/-- Representative lookup in the mapping array.  The source implements this
lookup with `argsort`/`searchsorted` (cutting.py lines 49-51), which returns
the row whose first column equals the key; every key that is looked up is
present in the first column (see `buildMapping_complete`), so a plain
first-match lookup is an exact model.  The default is never reached. -/
def mlook (m : List (ℕ × ℕ)) (n : ℕ) : ℕ :=
  ((m.find? (fun p => decide (p.1 = n))).map Prod.snd).getD n

/-- The result record of `merge_cross_chunk_edges`. -/
structure MCE where
  redges : List (ℕ × ℕ)
  raffs : List Aff
  mapping : List (ℕ × ℕ)
  remapping : List (ℕ × List ℕ)
deriving DecidableEq

/-- `merge_cross_chunk_edges` (cutting.py lines 13-56): partition the edges
by `np.isinf(affs)`, compute the connected components of the cross-chunk
graph, elect `np.min` of each component as representative, extend the mapping
identically to all remaining nodes, and return the non-cross edges remapped
through the mapping together with their affinities, the mapping array and the
`representative → component nodes` dictionary. -/
def merge_cross_chunk_edges (edges : List (ℕ × ℕ)) (affs : List Aff) : MCE :=
  let ccs := components (crossPairs edges affs)
  let mapping := buildMapping edges affs
  { redges := (weightedPairs edges affs).map
      (fun p => (mlook mapping p.1.1, mlook mapping p.1.2))
    raffs := (weightedPairs edges affs).map Prod.snd
    mapping := mapping
    remapping := ccs.map (fun cc => (listMin cc, cc)) }

/-! ### `mincut` (cutting.py lines 59-190) -/

/-- Terminal remapping (cutting.py lines 83-101): a terminal present in
`mapping_dict` is replaced by its representative, an absent one is kept.
`dict(mapping)` keeps the last row per key; the first column of the mapping
has no duplicates (`buildMapping_fst_nodup`), so a first-match lookup agrees
with it. -/
def remapTerminals (mapping : List (ℕ × ℕ)) (ts : List ℕ) : List ℕ :=
  ts.map (fun t => ((mapping.find? (fun p => decide (p.1 = t))).map Prod.snd).getD t)

/-- `itertools.product(l, l)` (cutting.py lines 103-104). -/
def productPairs (l : List ℕ) : List (ℕ × ℕ) :=
  l.flatMap (fun a => l.map (fun b => (a, b)))

/-- Normalise an undirected edge: `networkx.Graph` identifies `(u, v)`
with `(v, u)`. -/
def normPair (p : ℕ × ℕ) : ℕ × ℕ := if p.1 ≤ p.2 then p else (p.2, p.1)

/-- The sequence of capacity assignments performed on the working graph
(cutting.py lines 111-125), in program order: each weighted edge receives its
affinity, then every sink-sink pair and then every source-source pair
receives `float_max`.  A later assignment to the same undirected edge
overwrites an earlier one. -/
def capAssignments (redges : List (ℕ × ℕ)) (raffs : List Aff)
    (sources' sinks' : List ℕ) : List ((ℕ × ℕ) × ℚ) :=
  (redges.zip raffs).map (fun p => (normPair p.1, p.2.finVal))
    ++ (productPairs sinks').map (fun p => (normPair p, float_max))
    ++ (productPairs sources').map (fun p => (normPair p, float_max))

/-- The final capacity of an undirected edge: the value of the last
assignment to it.  Every edge of the working graph receives at least one
assignment, so the default is never read by the flow computation. -/
def capLookup (assigns : List ((ℕ × ℕ) × ℚ)) (p : ℕ × ℕ) : ℚ :=
  ((assigns.reverse.find? (fun a => decide (a.1 = normPair p))).map Prod.snd).getD 0

/-- The remapped sources of `mincut` (cutting.py lines 94-101). -/
def mincutRemappedSources (edges : List (ℕ × ℕ)) (affs : List Aff)
    (sources : List ℕ) : List ℕ :=
  remapTerminals (merge_cross_chunk_edges edges affs).mapping sources

/-- The remapped sinks of `mincut` (cutting.py lines 88-92). -/
def mincutRemappedSinks (edges : List (ℕ × ℕ)) (affs : List Aff)
    (sinks : List ℕ) : List ℕ :=
  remapTerminals (merge_cross_chunk_edges edges affs).mapping sinks

/-- Edge list of the working graph (cutting.py lines 106-109): the remapped
weighted edges, then all sink-sink pairs, then all source-source pairs. -/
def mincutWorkingEdges (edges : List (ℕ × ℕ)) (affs : List Aff)
    (sources sinks : List ℕ) : List (ℕ × ℕ) :=
  (merge_cross_chunk_edges edges affs).redges
    ++ productPairs (mincutRemappedSinks edges affs sinks)
    ++ productPairs (mincutRemappedSources edges affs sources)

/-- The capacity function of the working graph built by `mincut`
(cutting.py lines 111-125). -/
def mincutCapacity (edges : List (ℕ × ℕ)) (affs : List Aff)
    (sources sinks : List ℕ) (p : ℕ × ℕ) : ℚ :=
  capLookup (capAssignments (merge_cross_chunk_edges edges affs).redges
    (merge_cross_chunk_edges edges affs).raffs
    (mincutRemappedSources edges affs sources)
    (mincutRemappedSinks edges affs sinks)) p

/-- The assertion guard of cutting.py line 81:
`np.unique(mapping[:, 0], return_counts=True)[1].max() == 1`. -/
def mincutAssertCheck (mapping : List (ℕ × ℕ)) : Bool :=
  (((mapping.map Prod.fst).dedup.map
    (fun n => (mapping.map Prod.fst).count n)).foldl Nat.max 0) == 1

/-- The test applied to each connected component of the working graph
(cutting.py lines 133-144): the component contains some terminal and misses
some source or some sink. -/
def badCC (sources' sinks' : List ℕ) (cc : List ℕ) : Bool :=
  (sources'.any (fun s => decide (s ∈ cc)) || sinks'.any (fun t => decide (t ∈ cc)))
    && (sources'.any (fun s => !decide (s ∈ cc)) || sinks'.any (fun t => !decide (t ∈ cc)))

/-- Nodes kept after discarding the terminal-free components of the working
graph (cutting.py lines 137-139). -/
def mincutKeptNodes (edges : List (ℕ × ℕ)) (affs : List Aff)
    (sources sinks : List ℕ) : List ℕ :=
  ((components (mincutWorkingEdges edges affs sources sinks)).filter
    (fun cc => (mincutRemappedSources edges affs sources).any (fun s => decide (s ∈ cc))
      || (mincutRemappedSinks edges affs sinks).any (fun t => decide (t ∈ cc)))).flatten

/-- Working-graph edges surviving the removal of terminal-free components
(`weighted_graph.remove_nodes_from`, cutting.py line 139). -/
def mincutPrunedEdges (edges : List (ℕ × ℕ)) (affs : List Aff)
    (sources sinks : List ℕ) : List (ℕ × ℕ) :=
  (mincutWorkingEdges edges affs sources sinks).filter
    (fun e => decide (e.1 ∈ mincutKeptNodes edges affs sources sinks)
      && decide (e.2 ∈ mincutKeptNodes edges affs sources sinks))

/-- One expansion of the set of nodes reached from a seed along the
undirected edges `es`. -/
def expandReach (es : List (ℕ × ℕ)) (seen : List ℕ) : List ℕ :=
  (seen ++ es.flatMap (fun e =>
    if decide (e.1 ∈ seen) then [e.2] else if decide (e.2 ∈ seen) then [e.1] else [])).dedup

def reachAux (es : List (ℕ × ℕ)) : ℕ → List ℕ → List ℕ
  | 0, seen => seen
  | k + 1, seen => reachAux es k (expandReach es seen)

/-- Decides `s`-`t` connectivity in the undirected graph `es` (enough
expansions to exhaust every node of the edge list). -/
def connBool (es : List (ℕ × ℕ)) (s t : ℕ) : Bool :=
  decide (t ∈ reachAux es (2 * es.length + 1) [s])

/-- Running capacity sum, kept as an unnormalised fraction (numerator and
positive denominator).  The value denoted is the exact rational sum;
normalised `ℚ` addition is avoided only so that concrete runs reduce inside
the kernel. -/
def addCap (acc : ℤ × ℕ) (q : ℚ) : ℤ × ℕ :=
  (acc.1 * q.den + q.num * acc.2, acc.2 * q.den)

def capSum (cap : ℕ × ℕ → ℚ) (l : List (ℕ × ℕ)) : ℤ × ℕ :=
  l.foldl (fun acc e => addCap acc (cap e)) (0, 1)

/-- Comparison of two unnormalised fractions by cross-multiplication. -/
def capLt (a b : ℤ × ℕ) : Bool := decide (a.1 * (b.2 : ℤ) < b.1 * (a.2 : ℤ))

/-- Modelled from the spec: `networkx.algorithms.minimum_edge_cut` with
`flow_func=edmonds_karp` is an external library call (cutting.py
lines 146-147); spec §4.5 step 5 specifies "Compute a minimum edge cut
between a nominated source representative and a nominated sink
representative".  Modelled as an exhaustive search for a minimum-capacity
set of undirected edges whose removal disconnects `s` from `t`, returning
the first minimiser in enumeration order.  When `s` and `t` are already
disconnected the empty cut is returned, as with networkx. -/
def minimumEdgeCut (es : List (ℕ × ℕ)) (cap : ℕ × ℕ → ℚ) (s t : ℕ) :
    Option (List (ℕ × ℕ)) :=
  let uedges := (es.map normPair).dedup
  let cands := uedges.sublists.filter
    (fun sub => !connBool (uedges.filter (fun e => !decide (e ∈ sub))) s t)
  cands.foldl (fun best sub =>
    match best with
    | none => some sub
    | some b => if capLt (capSum cap sub) (capSum cap b) then some sub else best) none

/-- Expansion step of the un-coalescing stage (cutting.py lines 168-181):
a cut edge between representatives is expanded to all ordered pairs between
the original nodes of its two sides, in both orderings. -/
def expandCut (remapping : List (ℕ × List ℕ)) (cut : ℕ × ℕ) : List (ℕ × ℕ) :=
  let pre := ((remapping.find? (fun p => decide (p.1 = cut.1))).map Prod.snd).getD [cut.1]
  let post := ((remapping.find? (fun p => decide (p.1 = cut.2))).map Prod.snd).getD [cut.2]
  pre.flatMap (fun a => post.map (fun b => (a, b)))
    ++ post.flatMap (fun a => pre.map (fun b => (a, b)))

/-- The un-coalescing stage (cutting.py lines 168-189): expand every cut
edge and keep the pairs occurring among the original input edges
(`np.in1d` over the `u8,u8` views compares ordered pairs). -/
def uncoalesceCutset (remapping : List (ℕ × List ℕ)) (cs : List (ℕ × ℕ))
    (orig : List (ℕ × ℕ)) : List (ℕ × ℕ) :=
  (cs.flatMap (expandCut remapping)).filter (fun e => decide (e ∈ orig))

/-- The cut set computed on the pruned working graph, before un-coalescing
(cutting.py lines 146-147). -/
def mincutCutset (edges : List (ℕ × ℕ)) (affs : List Aff)
    (sources sinks : List ℕ) : Option (List (ℕ × ℕ)) :=
  match mincutRemappedSources edges affs sources,
      mincutRemappedSinks edges affs sinks with
  | s :: _, t :: _ =>
      if s = t then none
      else minimumEdgeCut (mincutPrunedEdges edges affs sources sinks)
        (mincutCapacity edges affs sources sinks) s t
  | _, _ => none

/-- Outcome of a `mincut` call: a returned value, or a raised exception. -/
inductive MincutOutcome where
  | ok : List (ℕ × ℕ) → MincutOutcome
  | exc : String → MincutOutcome
deriving DecidableEq

/-- The final stage of `mincut` (cutting.py lines 152-190): the dead
`cutset is None` guard returns the empty cut, `list(cutset)[0]` on an empty
cut set raises `IndexError`, and otherwise the cut set is un-coalesced
against the original edges. -/
def mincutFinish (remapping : List (ℕ × List ℕ)) (orig : List (ℕ × ℕ)) :
    Option (List (ℕ × ℕ)) → MincutOutcome
  | none => .ok []
  | some [] => .exc "IndexError"
  | some cs => .ok (uncoalesceCutset remapping cs orig)

/-- `mincut` (cutting.py lines 59-190).  The disconnected-terminals branch
(lines 141-144) logs "sources and sinks are in different connected
components" and returns the empty cut; `sources[0]` on an empty terminal
list raises `IndexError`, as does `list(cutset)[0]` on an empty cut set;
a same-node source/sink pair is rejected by networkx.  The assertion of
line 81 is modelled by `mincutAssertCheck` (and proved to always pass);
print statements and the post-cut component logging (lines 157-166) have no
effect on the result and are omitted. -/
def mincut (edges : List (ℕ × ℕ)) (affs : List Aff)
    (sources sinks : List ℕ) : MincutOutcome :=
  if (merge_cross_chunk_edges edges affs).redges = [] then .ok []
  else if !mincutAssertCheck (merge_cross_chunk_edges edges affs).mapping then
    .exc "AssertionError"
  else if (components (mincutWorkingEdges edges affs sources sinks)).any
      (badCC (mincutRemappedSources edges affs sources)
        (mincutRemappedSinks edges affs sinks)) then .ok []
  else
    match mincutRemappedSources edges affs sources,
        mincutRemappedSinks edges affs sinks with
    | [], _ => .exc "IndexError"
    | _ :: _, [] => .exc "IndexError"
    | s :: _, t :: _ =>
      if s = t then .exc "NetworkXError"
      else
        mincutFinish (merge_cross_chunk_edges edges affs).remapping edges
          (minimumEdgeCut (mincutPrunedEdges edges affs sources sinks)
            (mincutCapacity edges affs sources sinks) s t)

/-! ### Web handlers (`app/segmentation/common.py`)

The handlers are Flask request handlers; the request parsing, supervoxel
lookup and the ChunkedGraph backend calls are I/O.  Each handler is modelled
from its deterministic control flow over the outcome of its backend call,
which becomes an explicit parameter. -/

/-- Exceptions raised by the ChunkedGraph edit calls and caught by the
handlers (`cg_exceptions`; the backend itself lives outside `common.py`). -/
inductive EditExc where
  | lockingError : EditExc
  | preconditionError : String → EditExc
  | postconditionError : String → EditExc
deriving DecidableEq

/-- The edit result consumed by the handlers: `cg.add_edges`,
`cg.remove_edges`, `cg.undo` and `cg.redo` return an object carrying
`operation_id`, `new_root_ids` (an id array, or `None`) and `new_lvl2_ids`. -/
structure EditResult where
  operation_id : ℕ
  new_root_ids : Option (List ℕ)
  new_lvl2_ids : List ℕ
deriving DecidableEq

/-- Errors surfaced by a handler: the `cg_exceptions` HTTP errors it raises
itself, or an exception it does not catch, propagated unchanged. -/
inductive HandlerErr where
  | internalServerError : String → HandlerErr
  | badRequest : String → HandlerErr
  | uncaught : EditExc → HandlerErr
deriving DecidableEq

/-- Modelled from the spec: the `cg_exceptions` module is not under `src/`.
Spec §7 lists `BadRequest` as the client-side error kind (HTTP 4xx,
"malformed payload, ..."), distinct from the server-side internal kind
(`InternalServerError`, HTTP 5xx). -/
def HandlerErr.isClientError : HandlerErr → Bool
  | .badRequest _ => true
  | _ => false

/-- `handle_merge` (common.py lines 366-391), from the `cg.add_edges` call
on; the request parsing, supervoxel lookup and Chebyshev guard precede this
fragment and do not depend on the edit outcome, which is the parameter here.
The boolean records whether `publish_edit` was called (lines 388-389). -/
def handle_merge (editOutcome : Except EditExc EditResult) :
    Except HandlerErr (EditResult × Bool) :=
  match editOutcome with
  | .error .lockingError =>
      .error (.internalServerError "Could not acquire root lock for merge operation.")
  | .error (.preconditionError m) => .error (.badRequest m)
  | .error e => .error (.uncaught e)
  | .ok ret =>
      if ret.new_root_ids = none then
        .error (.internalServerError "Could not merge selected supervoxel.")
      else .ok (ret, !ret.new_lvl2_ids.isEmpty)

/-- `handle_split` (common.py lines 434-462), from the `cg.remove_edges`
call on; same modelling as `handle_merge`. -/
def handle_split (editOutcome : Except EditExc EditResult) :
    Except HandlerErr (EditResult × Bool) :=
  match editOutcome with
  | .error .lockingError =>
      .error (.internalServerError "Could not acquire root lock for split operation.")
  | .error (.preconditionError m) => .error (.badRequest m)
  | .error e => .error (.uncaught e)
  | .ok ret =>
      if ret.new_root_ids = none then
        .error (.internalServerError "Could not split selected segment groups.")
      else .ok (ret, !ret.new_lvl2_ids.isEmpty)

/-- `handle_undo` (common.py lines 468-502): the deny-list check is the
first statement of the handler, before any request parsing or graph access;
then the `cg.undo` outcome is dispatched.  `PreconditionError` and
`PostconditionError` are both converted to `BadRequest` (line 493). -/
def handle_undo (table_id : String) (editOutcome : Except EditExc EditResult) :
    Except HandlerErr (EditResult × Bool) :=
  if table_id = "fly_v26" ∨ table_id = "fly_v31" then
    .error (.internalServerError "Undo not supported for this chunkedgraph table.")
  else
    match editOutcome with
    | .error .lockingError =>
        .error (.internalServerError "Could not acquire root lock for undo operation.")
    | .error (.preconditionError m) => .error (.badRequest m)
    | .error (.postconditionError m) => .error (.badRequest m)
    | .ok ret => .ok (ret, !ret.new_lvl2_ids.isEmpty)

/-- `handle_redo` (common.py lines 508-542): same structure as
`handle_undo`. -/
def handle_redo (table_id : String) (editOutcome : Except EditExc EditResult) :
    Except HandlerErr (EditResult × Bool) :=
  if table_id = "fly_v26" ∨ table_id = "fly_v31" then
    .error (.internalServerError "Redo not supported for this chunkedgraph table.")
  else
    match editOutcome with
    | .error .lockingError =>
        .error (.internalServerError "Could not acquire root lock for redo operation.")
    | .error (.preconditionError m) => .error (.badRequest m)
    | .error (.postconditionError m) => .error (.badRequest m)
    | .ok ret => .ok (ret, !ret.new_lvl2_ids.isEmpty)

/-- An operation-log entry, as consumed by `all_user_operations`. -/
structure LogEntry where
  opId : ℕ
  userId : String
  ts : ℕ
deriving DecidableEq

/-- Modelled from the spec: `cg.read_log_rows(start_time=...)` is not under
`src/`; spec §4.6 specifies "Read all operations by target_user since a
start_time" and §4.2 gives `read_log_rows(filter) → ordered entries`.
Modelled as the log entries with timestamp at or after the start time. -/
def read_log_rows (log : List LogEntry) (startTime : ℕ) : List LogEntry :=
  log.filter (fun e => decide (startTime ≤ e.ts))

/-- Stable insertion (models Python `sorted` / `np.sort`): `x` is placed
before the first element `y` with `r x y = true`; equal elements therefore
keep their original relative order. -/
def insortBy (r : α → α → Bool) (x : α) : List α → List α
  | [] => [x]
  | y :: ys => if r x y then x :: y :: ys else y :: insortBy r x ys

/-- Stable insertion sort, inserting right to left. -/
def stableSortBy (r : α → α → Bool) : List α → List α
  | [] => []
  | x :: xs => insortBy r x (stableSortBy r xs)

/-- `all_user_operations` (common.py lines 588-614): iterate the log rows in
ascending operation-id order (`np.sort` over the dict keys) and keep the
entries whose user id equals the target user, returning their operation ids
and timestamps. -/
def all_user_operations (log : List LogEntry) (target : String) (startTime : ℕ) :
    List (ℕ × ℕ) :=
  ((stableSortBy (fun a b => decide (a.opId ≤ b.opId))
      (read_log_rows log startTime)).filter
    (fun e => decide (e.userId = target))).map (fun e => (e.opId, e.ts))

/-- The operation list processed by `handle_rollback` (common.py
lines 562-566): the target user's `(operation_id, timestamp)` pairs sorted
by timestamp in descending order (Python stable `sort` with
`reverse=True`). -/
def rollback_operations (log : List LogEntry) (target : String) (startTime : ℕ) :
    List (ℕ × ℕ) :=
  stableSortBy (fun a b => decide (b.2 ≤ a.2)) (all_user_operations log target startTime)

/-- Modelled from the spec: `cg.undo_operation` is not under `src/`.
Spec §4.6 `rollback_user`: "undo each in order, skipping already-undone
entries" — an operation that was already undone is skipped, any other is
undone and attributed to the user id passed in. -/
def undo_operation (undone : List ℕ) (user_id : String) (opId : ℕ) :
    Option (String × ℕ) :=
  if opId ∈ undone then none else some (user_id, opId)

/-- `handle_rollback` (common.py lines 548-582): deny-listed tables are
rejected by the first statement; otherwise the target user's operations
since the start time are undone in descending-timestamp order through
`cg.undo_operation(user_id=target_user_id, ...)`.  The result is the list of
performed undo calls `(user id passed, operation id)`; the per-call error
conversion and the remesh publishing (lines 572-580) do not alter which
undo calls are made and are omitted. -/
def handle_rollback (table_id : String) (log : List LogEntry) (target : String)
    (startTime : ℕ) (undone : List ℕ) : Except HandlerErr (List (String × ℕ)) :=
  if table_id = "fly_v26" ∨ table_id = "fly_v31" then
    .error (.internalServerError "Rollback not supported for this chunkedgraph table.")
  else
    .ok ((rollback_operations log target startTime).filterMap
      (fun op => undo_operation undone target op.1))

theorem adjIn_symm {es : List (ℕ × ℕ)} {a b : ℕ} (h : adjIn es a b) : adjIn es b a := by
  cases h with
  | inl h => exact Or.inr h
  | inr h => exact Or.inl h

theorem connIn_symm {es : List (ℕ × ℕ)} {a b : ℕ} (h : connIn es a b) : connIn es b a := by
  induction h with
  | refl => exact Relation.ReflTransGen.refl
  | tail _ hadj ih =>
      exact Relation.ReflTransGen.trans (Relation.ReflTransGen.single (adjIn_symm hadj)) ih

theorem adjIn_mono {es es' : List (ℕ × ℕ)} (hsub : ∀ p ∈ es, p ∈ es') {a b : ℕ}
    (h : adjIn es a b) : adjIn es' a b := by
  cases h with
  | inl h => exact Or.inl (hsub _ h)
  | inr h => exact Or.inr (hsub _ h)

theorem connIn_mono {es es' : List (ℕ × ℕ)} (hsub : ∀ p ∈ es, p ∈ es') {a b : ℕ}
    (h : connIn es a b) : connIn es' a b := by
  induction h with
  | refl => exact Relation.ReflTransGen.refl
  | tail _ hadj ih => exact Relation.ReflTransGen.tail ih (adjIn_mono hsub hadj)

theorem touchesIn_mono {es es' : List (ℕ × ℕ)} (hsub : ∀ p ∈ es, p ∈ es') {a : ℕ}
    (h : touchesIn es a) : touchesIn es' a := by
  obtain ⟨b, hb⟩ := h
  exact ⟨b, adjIn_mono hsub hb⟩

theorem pairwise_disjoint_eq {cs : List (List ℕ)} (h : List.Pairwise List.Disjoint cs)
    {c c' : List ℕ} {a : ℕ} (hc : c ∈ cs) (hc' : c' ∈ cs) (ha : a ∈ c) (ha' : a ∈ c') :
    c = c' := by
  induction cs with
  | nil => cases hc
  | cons d rest ih =>
      have hd := List.pairwise_cons.mp h
      cases hc with
      | head =>
          cases hc' with
          | head => rfl
          | tail _ hmem => exact absurd ha' (hd.1 _ hmem ha)
      | tail _ hmem =>
          cases hc' with
          | head => exact absurd ha (hd.1 _ hmem ha')
          | tail _ hmem' => exact ih hd.2 hmem hmem'

theorem mem_addEdgeCC_head {cs : List (List ℕ)} {u v a : ℕ} :
    a ∈ (u :: v :: (cs.filter (fun c => decide (u ∈ c) || decide (v ∈ c))).flatten).dedup ↔
      a = u ∨ a = v ∨ ∃ c ∈ cs, (u ∈ c ∨ v ∈ c) ∧ a ∈ c := by
  simp only [List.mem_dedup, List.mem_cons, List.mem_flatten, List.mem_filter,
    Bool.or_eq_true, decide_eq_true_iff]
  constructor
  · rintro (h | h | ⟨c, ⟨hc, ht⟩, ha⟩)
    · exact Or.inl h
    · exact Or.inr (Or.inl h)
    · exact Or.inr (Or.inr ⟨c, hc, ht, ha⟩)
  · rintro (h | h | ⟨c, hc, ht, ha⟩)
    · exact Or.inl h
    · exact Or.inr (Or.inl h)
    · exact Or.inr (Or.inr ⟨c, ⟨hc, ht⟩, ha⟩)

theorem ccok_addEdge {past : List (ℕ × ℕ)} {cs : List (List ℕ)} (h : CCOk past cs)
    (u v : ℕ) : CCOk (past ++ [(u, v)]) (addEdgeCC cs u v) := by
  have hsub : ∀ p ∈ past, p ∈ past ++ [(u, v)] := fun p hp => List.mem_append_left _ hp
  have huv : (u, v) ∈ past ++ [(u, v)] := List.mem_append_right _ (List.mem_singleton.mpr rfl)
  have hadj : adjIn (past ++ [(u, v)]) u v := Or.inl huv
  -- every member of the merged head component is connected to `u`
  have hconnu : ∀ a ∈ (u :: v :: (cs.filter
      (fun c => decide (u ∈ c) || decide (v ∈ c))).flatten).dedup,
      connIn (past ++ [(u, v)]) a u := by
    intro a ha
    rcases mem_addEdgeCC_head.mp ha with h' | h' | ⟨c, hc, ht, hac⟩
    · subst h'; exact Relation.ReflTransGen.refl
    · subst h'; exact Relation.ReflTransGen.single (adjIn_symm hadj)
    · cases ht with
      | inl hu => exact connIn_mono hsub (h.sound c hc a hac u hu)
      | inr hv =>
          exact Relation.ReflTransGen.trans
            (connIn_mono hsub (h.sound c hc a hac v hv))
            (Relation.ReflTransGen.single (adjIn_symm hadj))
  refine ⟨?_, ?_, ?_, ?_, ?_, ?_⟩
  · -- nonempty
    intro c hc
    cases hc with
    | head =>
        intro hemp
        have : u ∈ ([] : List ℕ) := hemp ▸ mem_addEdgeCC_head.mpr (Or.inl rfl)
        cases this
    | tail _ hmem => exact h.nonempty c (List.mem_of_mem_filter hmem)
  · -- nodup
    intro c hc
    cases hc with
    | head => exact List.nodup_dedup _
    | tail _ hmem => exact h.nodup c (List.mem_of_mem_filter hmem)
  · -- pairwise disjoint
    refine List.pairwise_cons.mpr ⟨?_, ?_⟩
    · intro c' hc' a ha ha'
      have hc'cs : c' ∈ cs := List.mem_of_mem_filter hc'
      have hnot : ¬(u ∈ c' ∨ v ∈ c') := by
        have := (List.mem_filter.mp hc').2
        simpa [Bool.not_eq_true', decide_eq_true_iff] using this
      rcases mem_addEdgeCC_head.mp ha with h' | h' | ⟨c, hc, ht, hac⟩
      · exact hnot (Or.inl (h' ▸ ha'))
      · exact hnot (Or.inr (h' ▸ ha'))
      · have hccs : c ∈ cs := hc
        have : c = c' := pairwise_disjoint_eq h.disj hccs hc'cs hac ha'
        exact hnot (this ▸ ht)
    · exact h.disj.sublist (List.filter_sublist cs)
  · -- soundness
    intro c hc a ha b hb
    cases hc with
    | head =>
        exact Relation.ReflTransGen.trans (hconnu a ha) (connIn_symm (hconnu b hb))
    | tail _ hmem =>
        have hccs := List.mem_of_mem_filter hmem
        exact connIn_mono hsub (h.sound c hccs a ha b hb)
  · -- cover
    intro p hp
    rcases List.mem_append.mp hp with hp | hp
    · obtain ⟨c, hc, h1, h2⟩ := h.cover p hp
      by_cases ht : u ∈ c ∨ v ∈ c
      · refine ⟨_, List.mem_cons_self _ _, ?_, ?_⟩
        · exact mem_addEdgeCC_head.mpr (Or.inr (Or.inr ⟨c, hc, ht, h1⟩))
        · exact mem_addEdgeCC_head.mpr (Or.inr (Or.inr ⟨c, hc, ht, h2⟩))
      · refine ⟨c, ?_, h1, h2⟩
        refine List.mem_cons_of_mem _ (List.mem_filter.mpr ⟨hc, ?_⟩)
        simpa [Bool.not_eq_true', decide_eq_true_iff] using ht
    · have hp' : p = (u, v) := by simpa using hp
      subst hp'
      refine ⟨_, List.mem_cons_self _ _, ?_, ?_⟩
      · exact mem_addEdgeCC_head.mpr (Or.inl rfl)
      · exact mem_addEdgeCC_head.mpr (Or.inr (Or.inl rfl))
  · -- touch
    intro c hc a ha
    cases hc with
    | head =>
        rcases mem_addEdgeCC_head.mp ha with h' | h' | ⟨c', hc', _, hac⟩
        · subst h'; exact ⟨v, hadj⟩
        · subst h'; exact ⟨u, adjIn_symm hadj⟩
        · exact touchesIn_mono hsub (h.touch c' hc' a hac)
    | tail _ hmem =>
        exact touchesIn_mono hsub (h.touch c (List.mem_of_mem_filter hmem) a ha)

theorem ccok_foldl : ∀ (todo past : List (ℕ × ℕ)) (cs : List (List ℕ)), CCOk past cs →
    CCOk (past ++ todo) (todo.foldl (fun cs e => addEdgeCC cs e.1 e.2) cs) := by
  intro todo
  induction todo with
  | nil => intro past cs h; simpa using h
  | cons e rest ih =>
      intro past cs h
      have h1 := ccok_addEdge h e.1 e.2
      have h2 := ih (past ++ [(e.1, e.2)]) _ h1
      simpa [List.append_assoc] using h2

theorem components_ok (es : List (ℕ × ℕ)) : CCOk es (components es) := by
  have h0 : CCOk [] [] := by
    refine ⟨?_, ?_, ?_, ?_, ?_, ?_⟩ <;> simp
  simpa using ccok_foldl es [] [] h0

/-- Completeness: two connected nodes of the graph land in a common component. -/
theorem components_complete {es : List (ℕ × ℕ)} {a b : ℕ} (hconn : connIn es a b)
    (htouch : touchesIn es a) : ∃ c ∈ components es, a ∈ c ∧ b ∈ c := by
  have hok := components_ok es
  induction hconn with
  | refl =>
      obtain ⟨b', hb'⟩ := htouch
      cases hb' with
      | inl h =>
          obtain ⟨c, hc, h1, _⟩ := hok.cover _ h
          exact ⟨c, hc, h1, h1⟩
      | inr h =>
          obtain ⟨c, hc, _, h2⟩ := hok.cover _ h
          exact ⟨c, hc, h2, h2⟩
  | tail _ hadj ih =>
      rename_i m b' _
      obtain ⟨c, hc, hac, hmc⟩ := ih
      cases hadj with
      | inl h =>
          obtain ⟨c', hc', h1, h2⟩ := hok.cover _ h
          have : c = c' := pairwise_disjoint_eq hok.disj hc hc' hmc h1
          exact ⟨c, hc, hac, this ▸ h2⟩
      | inr h =>
          obtain ⟨c', hc', h1, h2⟩ := hok.cover _ h
          have : c = c' := pairwise_disjoint_eq hok.disj hc hc' hmc h2
          exact ⟨c, hc, hac, this ▸ h1⟩

theorem foldl_min_mem : ∀ (xs : List ℕ) (x : ℕ), xs.foldl Nat.min x ∈ x :: xs := by
  intro xs
  induction xs with
  | nil => intro x; simp
  | cons y ys ih =>
      intro x
      have hm := ih (Nat.min x y)
      simp only [List.foldl_cons]
      rcases List.mem_cons.mp hm with h | h
      · rw [h]
        rcases Nat.le_total x y with hle | hle
        · simp [Nat.min_eq_left hle]
        · simp [Nat.min_eq_right hle]
      · exact List.mem_cons_of_mem _ (List.mem_cons_of_mem _ h)

theorem foldl_min_le : ∀ (xs : List ℕ) (x a : ℕ), a ∈ x :: xs → xs.foldl Nat.min x ≤ a := by
  intro xs
  induction xs with
  | nil => intro x a ha; simp at ha; simp [ha]
  | cons y ys ih =>
      intro x a ha
      simp only [List.foldl_cons]
      rcases List.mem_cons.mp ha with h | h
      · subst h
        calc ys.foldl Nat.min (Nat.min a y) ≤ Nat.min a y :=
              ih _ _ (List.mem_cons_self _ _)
          _ ≤ a := Nat.min_le_left _ _
      · rcases List.mem_cons.mp h with h' | h'
        · subst h'
          calc ys.foldl Nat.min (Nat.min x a) ≤ Nat.min x a :=
                ih _ _ (List.mem_cons_self _ _)
            _ ≤ a := Nat.min_le_right _ _
        · exact ih _ _ (List.mem_cons_of_mem _ h')

theorem listMin_mem {c : List ℕ} (h : c ≠ []) : listMin c ∈ c := by
  cases c with
  | nil => exact absurd rfl h
  | cons x xs => exact foldl_min_mem xs x

theorem listMin_le {c : List ℕ} {a : ℕ} (h : a ∈ c) : listMin c ≤ a := by
  cases c with
  | nil => cases h
  | cons x xs => exact foldl_min_le xs x a h

theorem mem_buildMapping_mapped {edges : List (ℕ × ℕ)} {affs : List Aff} {n r : ℕ}
    (h : (n, r) ∈ (components (crossPairs edges affs)).flatMap
      (fun cc => cc.map (fun n => (n, listMin cc)))) :
    ∃ cc ∈ components (crossPairs edges affs), n ∈ cc ∧ r = listMin cc := by
  obtain ⟨cc, hcc, hmem⟩ := List.mem_flatMap.mp h
  obtain ⟨n', hn', heq⟩ := List.mem_map.mp hmem
  obtain ⟨h1, h2⟩ := Prod.mk.injEq .. ▸ heq
  exact ⟨cc, hcc, h1 ▸ hn', h2.symm⟩

theorem crossNode_of_mem_component {edges : List (ℕ × ℕ)} {affs : List Aff} {cc : List ℕ}
    {n : ℕ} (hcc : cc ∈ components (crossPairs edges affs)) (hn : n ∈ cc) :
    crossNode edges affs n :=
  (components_ok (crossPairs edges affs)).touch cc hcc n hn

/-- Every node of the input edges has a row in the mapping. -/
theorem buildMapping_complete {edges : List (ℕ × ℕ)} (affs : List Aff) {n : ℕ}
    (hn : n ∈ edgeNodes edges) : ∃ r, (n, r) ∈ buildMapping edges affs := by
  by_cases hc : crossNode edges affs n
  · obtain ⟨cc, hcc, hmem, _⟩ := components_complete Relation.ReflTransGen.refl hc
    refine ⟨listMin cc, ?_⟩
    unfold buildMapping
    refine List.mem_append_left _ (List.mem_flatMap.mpr ⟨cc, hcc, ?_⟩)
    exact List.mem_map.mpr ⟨n, hmem, rfl⟩
  · refine ⟨n, ?_⟩
    unfold buildMapping
    refine List.mem_append_right _ ?_
    refine List.mem_map.mpr ⟨n, ?_, rfl⟩
    refine List.mem_filter.mpr ⟨List.mem_dedup.mpr hn, ?_⟩
    simp only [Bool.not_eq_true', List.any_eq_false]
    intro p hp
    simp only [Bool.or_eq_true, decide_eq_true_iff, not_or]
    obtain ⟨cc, hcc, hmem, hmin⟩ := mem_buildMapping_mapped hp
    constructor
    · intro h1
      exact hc (crossNode_of_mem_component hcc (h1 ▸ hmem))
    · intro h2
      have hmincc : listMin cc ∈ cc :=
        listMin_mem ((components_ok (crossPairs edges affs)).nonempty cc hcc)
      have hncc : n ∈ cc := by rw [← h2, hmin]; exact hmincc
      exact hc (crossNode_of_mem_component hcc hncc)

/-- A mapping row of a cross-chunk node carries the minimum of its connected
component in the cross-chunk graph. -/
theorem buildMapping_cross {edges : List (ℕ × ℕ)} {affs : List Aff} {n r : ℕ}
    (h : (n, r) ∈ buildMapping edges affs) (hc : crossNode edges affs n) :
    crossConn edges affs n r ∧ ∀ b, crossConn edges affs n b → r ≤ b := by
  have hok := components_ok (crossPairs edges affs)
  unfold buildMapping at h
  rcases List.mem_append.mp h with h | h
  · obtain ⟨cc, hcc, hmem, hmin⟩ := mem_buildMapping_mapped h
    subst hmin
    constructor
    · exact hok.sound cc hcc n hmem (listMin cc) (listMin_mem (hok.nonempty cc hcc))
    · intro b hb
      obtain ⟨c', hc', hn', hb'⟩ := components_complete hb hc
      have : cc = c' := pairwise_disjoint_eq hok.disj hcc hc' hmem hn'
      exact listMin_le (this ▸ hb')
  · obtain ⟨m, hm, heq⟩ := List.mem_map.mp h
    obtain ⟨h1, _⟩ := Prod.mk.injEq .. ▸ heq
    subst h1
    obtain ⟨cc, hcc, hmem, _⟩ := components_complete Relation.ReflTransGen.refl hc
    have hfalse := (List.mem_filter.mp hm).2
    rw [Bool.not_eq_true', List.any_eq_false] at hfalse
    have := hfalse (m, listMin cc)
      (List.mem_flatMap.mpr ⟨cc, hcc, List.mem_map.mpr ⟨m, hmem, rfl⟩⟩)
    simp at this

/-- A mapping row of a node outside every cross-chunk component maps the node
to itself. -/
theorem buildMapping_identity {edges : List (ℕ × ℕ)} {affs : List Aff} {n r : ℕ}
    (h : (n, r) ∈ buildMapping edges affs) (hc : ¬crossNode edges affs n) : r = n := by
  unfold buildMapping at h
  rcases List.mem_append.mp h with h | h
  · obtain ⟨cc, hcc, hmem, _⟩ := mem_buildMapping_mapped h
    exact absurd (crossNode_of_mem_component hcc hmem) hc
  · obtain ⟨m, _, heq⟩ := List.mem_map.mp h
    obtain ⟨h1, h2⟩ := Prod.mk.injEq .. ▸ heq
    rw [← h1, ← h2]

/-- The first column of the mapping has no duplicate: each node is mapped
exactly once. -/
theorem buildMapping_fst_nodup (edges : List (ℕ × ℕ)) (affs : List Aff) :
    ((buildMapping edges affs).map Prod.fst).Nodup := by
  have hok := components_ok (crossPairs edges affs)
  unfold buildMapping
  rw [List.map_append]
  have hmfst : ((components (crossPairs edges affs)).flatMap
      (fun cc => cc.map (fun n => (n, listMin cc)))).map Prod.fst =
      (components (crossPairs edges affs)).flatten := by
    rw [List.map_flatMap]
    have : ∀ cc : List ℕ, (cc.map (fun n => (n, listMin cc))).map Prod.fst = cc := by
      intro cc; rw [List.map_map]; exact List.map_id'' (fun x => rfl) _
    simp only [this]
    exact List.flatMap_id _
  rw [hmfst]
  have hufst : ∀ l : List ℕ, (l.map (fun n => (n, n))).map Prod.fst = l := by
    intro l; rw [List.map_map]; exact List.map_id'' (fun x => rfl) _
  rw [hufst]
  refine List.Nodup.append ?_ ?_ ?_
  · exact List.nodup_flatten.mpr ⟨hok.nodup, hok.disj⟩
  · exact ((edgeNodes edges).nodup_dedup).filter _
  · intro a ha ha'
    have hfalse := (List.mem_filter.mp ha').2
    rw [Bool.not_eq_true', List.any_eq_false] at hfalse
    obtain ⟨cc, hcc, hacc⟩ := List.mem_flatten.mp ha
    have := hfalse (a, listMin cc)
      (List.mem_flatMap.mpr ⟨cc, hcc, List.mem_map.mpr ⟨a, hacc, rfl⟩⟩)
    simp at this

/-- The `searchsorted` lookup returns a genuine row of the mapping for every
node of the input edges. -/
theorem mlook_mem {edges : List (ℕ × ℕ)} {affs : List Aff} {n : ℕ}
    (hn : n ∈ edgeNodes edges) :
    (n, mlook (buildMapping edges affs) n) ∈ buildMapping edges affs := by
  obtain ⟨r, hr⟩ := buildMapping_complete affs hn
  have hsome : ((buildMapping edges affs).find? (fun p => decide (p.1 = n))).isSome := by
    rw [List.find?_isSome]
    exact ⟨(n, r), hr, by simp⟩
  obtain ⟨q, hq⟩ := Option.isSome_iff_exists.mp hsome
  have hq1 : q.1 = n := by
    have := List.find?_some hq
    simpa using this
  have hqmem : q ∈ buildMapping edges affs := List.mem_of_find?_eq_some hq
  have : mlook (buildMapping edges affs) n = q.2 := by
    unfold mlook
    rw [hq]
    rfl
  rw [this, ← hq1]
  exact hqmem

theorem buildMapping_ne_nil {edges : List (ℕ × ℕ)} (affs : List Aff) (h : edges ≠ []) :
    buildMapping edges affs ≠ [] := by
  cases edges with
  | nil => exact absurd rfl h
  | cons e rest =>
      have : e.1 ∈ edgeNodes (e :: rest) := by
        simp [edgeNodes]
      obtain ⟨r, hr⟩ := buildMapping_complete affs this
      intro hnil
      rw [hnil] at hr
      cases hr

theorem insortBy_perm {α : Type} (r : α → α → Bool) (x : α) :
    ∀ l : List α, (insortBy r x l).Perm (x :: l) := by
  intro l
  induction l with
  | nil => simp [insortBy]
  | cons y ys ih =>
      cases hr : r x y with
      | true => simp [insortBy, hr]
      | false =>
          simp only [insortBy, hr, Bool.false_eq_true, if_false]
          exact (ih.cons y).trans (List.Perm.swap x y ys)

theorem stableSortBy_perm {α : Type} (r : α → α → Bool) :
    ∀ l : List α, (stableSortBy r l).Perm l := by
  intro l
  induction l with
  | nil => simp [stableSortBy]
  | cons x xs ih =>
      exact (insortBy_perm r x (stableSortBy r xs)).trans (ih.cons x)

theorem insortBy_pairwise {α : Type} {r : α → α → Bool}
    (htot : ∀ a b, r a b = false → r b a = true)
    (htrans : ∀ a b c, r a b = true → r b c = true → r a c = true)
    (x : α) : ∀ {l : List α}, l.Pairwise (fun a b => r a b = true) →
    (insortBy r x l).Pairwise (fun a b => r a b = true) := by
  intro l
  induction l with
  | nil => intro _; simp [insortBy]
  | cons y ys ih =>
      intro hp
      obtain ⟨hy, hys⟩ := List.pairwise_cons.mp hp
      cases hr : r x y with
      | true =>
          simp only [insortBy, hr, if_true]
          refine List.pairwise_cons.mpr ⟨?_, hp⟩
          intro z hz
          rcases List.mem_cons.mp hz with h | h
          · subst h; exact hr
          · exact htrans x y z hr (hy z h)
      | false =>
          simp only [insortBy, hr, Bool.false_eq_true, if_false]
          refine List.pairwise_cons.mpr ⟨?_, ih hys⟩
          intro z hz
          have hz' := (insortBy_perm r x ys).mem_iff.mp hz
          rcases List.mem_cons.mp hz' with h | h
          · rw [h]; exact htot x y hr
          · exact hy z h

theorem stableSortBy_pairwise {α : Type} {r : α → α → Bool}
    (htot : ∀ a b, r a b = false → r b a = true)
    (htrans : ∀ a b c, r a b = true → r b c = true → r a c = true) :
    ∀ l : List α, (stableSortBy r l).Pairwise (fun a b => r a b = true) := by
  intro l
  induction l with
  | nil => simp [stableSortBy]
  | cons x xs ih => exact insortBy_pairwise htot htrans x ih

/-! ### Helper lemmas for the claim theorems -/

theorem endpoints_mem_edgeNodes {edges : List (ℕ × ℕ)} {e : ℕ × ℕ} (h : e ∈ edges) :
    e.1 ∈ edgeNodes edges ∧ e.2 ∈ edgeNodes edges := by
  constructor
  · exact List.mem_flatMap.mpr ⟨e, h, by simp⟩
  · exact List.mem_flatMap.mpr ⟨e, h, by simp⟩

theorem weightedPairs_edge_mem {edges : List (ℕ × ℕ)} {affs : List Aff}
    {p : (ℕ × ℕ) × Aff} (h : p ∈ weightedPairs edges affs) : p.1 ∈ edges := by
  unfold weightedPairs at h
  have hz := (List.mem_filter.mp h).1
  have : (p.1, p.2) ∈ edges.zip affs := by simpa using hz
  exact (List.of_mem_zip this).1

theorem foldl_max_one : ∀ l : List ℕ, (∀ x ∈ l, x = 1) → l.foldl Nat.max 1 = 1 := by
  intro l
  induction l with
  | nil => intro _; rfl
  | cons x xs ih =>
      intro h
      have hx := h x (List.mem_cons_self x xs)
      subst hx
      have hm : Nat.max 1 1 = 1 := rfl
      simp only [List.foldl_cons, hm]
      exact ih fun y hy => h y (List.mem_cons_of_mem _ hy)

theorem foldl_max_zero {l : List ℕ} (h : ∀ x ∈ l, x = 1) (hne : l ≠ []) :
    l.foldl Nat.max 0 = 1 := by
  cases l with
  | nil => exact absurd rfl hne
  | cons x xs =>
      have hx := h x (List.mem_cons_self x xs)
      subst hx
      have hm : Nat.max 0 1 = 1 := rfl
      simp only [List.foldl_cons, hm]
      exact foldl_max_one xs fun y hy => h y (List.mem_cons_of_mem _ hy)

theorem mincutAssertCheck_of_nodup {mapping : List (ℕ × ℕ)}
    (hnd : (mapping.map Prod.fst).Nodup) (hne : mapping ≠ []) :
    mincutAssertCheck mapping = true := by
  unfold mincutAssertCheck
  rw [beq_iff_eq]
  apply foldl_max_zero
  · intro x hx
    obtain ⟨n, hn, hc⟩ := List.mem_map.mp hx
    rw [← hc]
    exact List.count_eq_one_of_mem hnd (List.mem_dedup.mp hn)
  · intro hmapnil
    apply hne
    have h1 : (mapping.map Prod.fst).dedup = [] := by
      cases hd : (mapping.map Prod.fst).dedup with
      | nil => rfl
      | cons a l => rw [hd] at hmapnil; cases hmapnil
    have h2 : mapping.map Prod.fst = [] := (List.dedup_eq_nil _).mp h1
    cases mapping with
    | nil => rfl
    | cons a l => cases h2

theorem redges_ne_nil_edges {edges : List (ℕ × ℕ)} {affs : List Aff}
    (h : (merge_cross_chunk_edges edges affs).redges ≠ []) : edges ≠ [] := by
  intro he
  subst he
  exact h rfl

theorem badCC_eq_true_iff {sources' sinks' : List ℕ} {cc : List ℕ} :
    badCC sources' sinks' cc = true ↔
      ((∃ s ∈ sources', s ∈ cc) ∨ (∃ t ∈ sinks', t ∈ cc)) ∧
      ((∃ s ∈ sources', s ∉ cc) ∨ (∃ t ∈ sinks', t ∉ cc)) := by
  unfold badCC
  simp

theorem find?_reverse_of_last {α : Type} (q : α → Bool) :
    ∀ (l : List α) (i : ℕ) (hi : i < l.length), q (l.get ⟨i, hi⟩) = true →
    (∀ j (hj : j < l.length), i < j → q (l.get ⟨j, hj⟩) = false) →
    l.reverse.find? q = some (l.get ⟨i, hi⟩) := by
  intro l
  induction l using List.reverseRecOn with
  | nil => intro i hi _ _; exact absurd hi (Nat.not_lt_zero i)
  | append_singleton xs a ih =>
      intro i hi hq hafter
      have hlen : (xs ++ [a]).length = xs.length + 1 := by simp
      rw [List.reverse_append, List.reverse_singleton, List.singleton_append]
      by_cases hcase : i = xs.length
      · subst hcase
        have hga : (xs ++ [a]).get ⟨xs.length, hi⟩ = a := by
          rw [List.get_eq_getElem]
          exact List.getElem_concat_length xs a _ rfl _
        rw [hga] at hq ⊢
        exact List.find?_cons_of_pos _ hq
      · have hilt : i < xs.length := by
          rw [hlen] at hi
          omega
        have hgi : (xs ++ [a]).get ⟨i, hi⟩ = xs.get ⟨i, hilt⟩ := by
          rw [List.get_eq_getElem, List.get_eq_getElem]
          exact List.getElem_append_left hilt
        have hjbig : xs.length < (xs ++ [a]).length := by rw [hlen]; omega
        have hqa : q a = false := by
          have hcall := hafter xs.length hjbig hilt
          have hga : (xs ++ [a]).get ⟨xs.length, hjbig⟩ = a := by
            rw [List.get_eq_getElem]
            exact List.getElem_concat_length xs a _ rfl _
          rwa [hga] at hcall
        rw [List.find?_cons_of_neg _ (by rw [hqa]; exact Bool.false_ne_true)]
        rw [hgi] at hq ⊢
        apply ih i hilt hq
        intro j hj hij
        have hjlt : j < (xs ++ [a]).length := by rw [hlen]; omega
        have hcall := hafter j hjlt hij
        have hgj : (xs ++ [a]).get ⟨j, hjlt⟩ = xs.get ⟨j, hj⟩ := by
          rw [List.get_eq_getElem, List.get_eq_getElem]
          exact List.getElem_append_left hj
        rwa [hgj] at hcall

theorem capLookup_terminal {redges : List (ℕ × ℕ)} {raffs : List Aff}
    {so' si' : List ℕ} {p : ℕ × ℕ}
    (hp : p ∈ productPairs so' ∨ p ∈ productPairs si') :
    capLookup (capAssignments redges raffs so' si') p = float_max := by
  unfold capLookup capAssignments
  rw [List.reverse_append, List.reverse_append, ← List.append_assoc]
  set q : (ℕ × ℕ) × ℚ → Bool := fun a => decide (a.1 = normPair p) with hq
  set W := ((productPairs so').map (fun p => (normPair p, float_max))).reverse
    ++ ((productPairs si').map (fun p => (normPair p, float_max))).reverse with hW
  have hterm : ∀ x ∈ W, x.2 = float_max := by
    intro x hx
    rcases List.mem_append.mp hx with hx | hx <;>
      · obtain ⟨pp, _, hpp⟩ := List.mem_map.mp (List.mem_reverse.mp hx)
        rw [← hpp]
  have hkey : ∃ x ∈ W, q x = true := by
    refine ⟨(normPair p, float_max), ?_, by simp [hq]⟩
    rw [hW]
    cases hp with
    | inl h =>
        exact List.mem_append_left _
          (List.mem_reverse.mpr (List.mem_map.mpr ⟨p, h, rfl⟩))
    | inr h =>
        exact List.mem_append_right _
          (List.mem_reverse.mpr (List.mem_map.mpr ⟨p, h, rfl⟩))
  have hsome : (W.find? q).isSome := List.find?_isSome.mpr hkey
  obtain ⟨r, hr⟩ := Option.isSome_iff_exists.mp hsome
  rw [List.find?_append, hr]
  have : (some r).or ((((redges.zip raffs).map
      (fun p => (normPair p.1, p.2.finVal))).reverse).find? q) = some r := rfl
  rw [this]
  exact hterm r (List.mem_of_find?_eq_some hr)

theorem capLookup_weighted {redges : List (ℕ × ℕ)} {raffs : List Aff}
    {so' si' : List ℕ} {i : ℕ} (hi : i < redges.length)
    (hlen : raffs.length = redges.length)
    (hso : normPair (redges.get ⟨i, hi⟩) ∉ (productPairs so').map normPair)
    (hsi : normPair (redges.get ⟨i, hi⟩) ∉ (productPairs si').map normPair)
    (hlast : ∀ j (hj : j < redges.length), i < j →
      normPair (redges.get ⟨j, hj⟩) ≠ normPair (redges.get ⟨i, hi⟩)) :
    capLookup (capAssignments redges raffs so' si') (redges.get ⟨i, hi⟩) =
      (raffs.get ⟨i, hlen ▸ hi⟩).finVal := by
  unfold capLookup capAssignments
  rw [List.reverse_append, List.reverse_append, ← List.append_assoc]
  set p := redges.get ⟨i, hi⟩ with hp
  set q : (ℕ × ℕ) × ℚ → Bool := fun a => decide (a.1 = normPair p) with hq
  set W := ((productPairs so').map (fun p => (normPair p, float_max))).reverse
    ++ ((productPairs si').map (fun p => (normPair p, float_max))).reverse with hW
  have hnone : W.find? q = none := by
    rw [List.find?_eq_none]
    intro x hx
    simp only [hq, decide_eq_true_iff]
    intro hx1
    rcases List.mem_append.mp hx with hx' | hx'
    · obtain ⟨pp, hpp, hppx⟩ := List.mem_map.mp (List.mem_reverse.mp hx')
      apply hso
      refine List.mem_map.mpr ⟨pp, hpp, ?_⟩
      rw [← hx1, ← hppx]
    · obtain ⟨pp, hpp, hppx⟩ := List.mem_map.mp (List.mem_reverse.mp hx')
      apply hsi
      refine List.mem_map.mpr ⟨pp, hpp, ?_⟩
      rw [← hx1, ← hppx]
  rw [List.find?_append, hnone, Option.none_or]
  have hzlen : (redges.zip raffs).length = redges.length := by
    rw [List.length_zip, hlen]
    exact Nat.min_self _
  have hizip : i < ((redges.zip raffs).map
      (fun p => (normPair p.1, p.2.finVal))).length := by
    rw [List.length_map, hzlen]
    exact hi
  have hfind := find?_reverse_of_last q
    ((redges.zip raffs).map (fun p => (normPair p.1, p.2.finVal))) i hizip ?_ ?_
  · rw [hfind]
    have : (((redges.zip raffs).map (fun p => (normPair p.1, p.2.finVal))).get
        ⟨i, hizip⟩).2 = (raffs.get ⟨i, hlen ▸ hi⟩).finVal := by
      rw [List.get_eq_getElem, List.getElem_map, List.getElem_zip]
      rfl
    rw [Option.map_some', this]
    rfl
  · rw [List.get_eq_getElem, List.getElem_map, List.getElem_zip]
    simp only [hq, decide_eq_true_eq]
    rfl
  · intro j hj hij
    have hjr : j < redges.length := by
      rw [List.length_map, hzlen] at hj
      exact hj
    rw [List.get_eq_getElem, List.getElem_map, List.getElem_zip]
    simp only [hq, decide_eq_false_iff_not]
    exact hlast j hjr hij

/-! ### Claim theorems -/

/-- Claim C1: given edges with positionally matching affinities,
`merge_cross_chunk_edges` partitions the input into cross-chunk (infinite
affinity) and weighted edges; each node of the cross-chunk graph is mapped
to the minimum node id of its connected component, each node of the input
edges belonging to no cross-chunk component is mapped to itself, and every
node of the input edges is mapped; the returned edges are the weighted
(non-cross) edges with both endpoints replaced through the mapping, paired
with their unchanged affinities. -/
theorem merge_cross_chunk_edges_correct (edges : List (ℕ × ℕ)) (affs : List Aff)
    (hlen : affs.length = edges.length) :
    (∀ n, n ∈ edgeNodes edges →
      ∃ r, (n, r) ∈ (merge_cross_chunk_edges edges affs).mapping) ∧
    (∀ n r, (n, r) ∈ (merge_cross_chunk_edges edges affs).mapping →
      crossNode edges affs n →
      crossConn edges affs n r ∧ ∀ b, crossConn edges affs n b → r ≤ b) ∧
    (∀ n r, (n, r) ∈ (merge_cross_chunk_edges edges affs).mapping →
      ¬crossNode edges affs n → r = n) ∧
    (merge_cross_chunk_edges edges affs).raffs =
      (weightedPairs edges affs).map Prod.snd ∧
    (merge_cross_chunk_edges edges affs).redges.length =
      (weightedPairs edges affs).length ∧
    (∀ i (hi : i < (weightedPairs edges affs).length)
        (hi' : i < (merge_cross_chunk_edges edges affs).redges.length),
      ((((weightedPairs edges affs).get ⟨i, hi⟩).1.1,
          ((merge_cross_chunk_edges edges affs).redges.get ⟨i, hi'⟩).1) ∈
        (merge_cross_chunk_edges edges affs).mapping) ∧
      ((((weightedPairs edges affs).get ⟨i, hi⟩).1.2,
          ((merge_cross_chunk_edges edges affs).redges.get ⟨i, hi'⟩).2) ∈
        (merge_cross_chunk_edges edges affs).mapping)) := by
  refine ⟨?_, ?_, ?_, rfl, ?_, ?_⟩
  · intro n hn
    exact buildMapping_complete affs hn
  · intro n r hm hc
    exact buildMapping_cross hm hc
  · intro n r hm hc
    exact buildMapping_identity hm hc
  · exact List.length_map _ _
  · intro i hi hi'
    have hred : (merge_cross_chunk_edges edges affs).redges.get ⟨i, hi'⟩ =
        (mlook (buildMapping edges affs) (((weightedPairs edges affs).get ⟨i, hi⟩).1.1),
          mlook (buildMapping edges affs) (((weightedPairs edges affs).get ⟨i, hi⟩).1.2)) :=
      List.getElem_map _
    rw [hred]
    have hw : (weightedPairs edges affs).get ⟨i, hi⟩ ∈ weightedPairs edges affs :=
      List.get_mem _ _ _
    have hedge := weightedPairs_edge_mem hw
    have hep := endpoints_mem_edgeNodes hedge
    exact ⟨mlook_mem hep.1, mlook_mem hep.2⟩

/-- Witness for C1: a concrete run with one finite and two infinite
affinities; node 2 has a mapping row. -/
theorem merge_cross_chunk_edges_correct_witness :
    ([Aff.inf, Aff.fin 5, Aff.inf].length = [((1:ℕ), (2:ℕ)), (2, 3), (3, 4)].length) ∧
    ∃ r, ((2:ℕ), r) ∈
      (merge_cross_chunk_edges [(1, 2), (2, 3), (3, 4)]
        [Aff.inf, Aff.fin 5, Aff.inf]).mapping :=
  ⟨by decide,
    (merge_cross_chunk_edges_correct [(1, 2), (2, 3), (3, 4)]
      [Aff.inf, Aff.fin 5, Aff.inf] (by decide)).1 2 (by decide)⟩

/-- Claim C5: the node → representative mapping built by
`merge_cross_chunk_edges` is a function — each node occurs exactly once in
its first column — so the `mincut` assertion that the maximum first-column
multiplicity equals 1 (cutting.py line 81, reached whenever the input edge
list is nonempty) always passes. -/
theorem mapping_is_function (edges : List (ℕ × ℕ)) (affs : List Aff) :
    ((merge_cross_chunk_edges edges affs).mapping.map Prod.fst).Nodup ∧
    (∀ n, n ∈ (merge_cross_chunk_edges edges affs).mapping.map Prod.fst →
      ((merge_cross_chunk_edges edges affs).mapping.map Prod.fst).count n = 1) ∧
    (edges ≠ [] →
      mincutAssertCheck (merge_cross_chunk_edges edges affs).mapping = true) := by
  have hnd := buildMapping_fst_nodup edges affs
  refine ⟨hnd, ?_, ?_⟩
  · intro n hn
    exact List.count_eq_one_of_mem hnd hn
  · intro hne
    exact mincutAssertCheck_of_nodup hnd (buildMapping_ne_nil affs hne)

/-- Witness for C5 at a concrete input. -/
theorem mapping_is_function_witness :
    ([((1:ℕ), (2:ℕ))] ≠ []) ∧
    mincutAssertCheck (merge_cross_chunk_edges [(1, 2)] [Aff.fin 1]).mapping = true :=
  ⟨by decide, (mapping_is_function [(1, 2)] [Aff.fin 1]).2.2 (by decide)⟩

/-- Claim C2: whenever some connected component of the working graph
contains at least one (remapped) source or sink but misses some source or
some sink, `mincut` takes the disconnected branch — the source logs
"sources and sinks are in different connected components" — and returns the
empty cut, producing no cut edges. -/
theorem mincut_disconnected (edges : List (ℕ × ℕ)) (affs : List Aff)
    (sources sinks : List ℕ)
    (h : ∃ cc ∈ components (mincutWorkingEdges edges affs sources sinks),
      ((∃ s ∈ mincutRemappedSources edges affs sources, s ∈ cc) ∨
        (∃ t ∈ mincutRemappedSinks edges affs sinks, t ∈ cc)) ∧
      ((∃ s ∈ mincutRemappedSources edges affs sources, s ∉ cc) ∨
        (∃ t ∈ mincutRemappedSinks edges affs sinks, t ∉ cc))) :
    mincut edges affs sources sinks = .ok [] := by
  unfold mincut
  by_cases hred : (merge_cross_chunk_edges edges affs).redges = []
  · rw [if_pos hred]
  · have hassert : mincutAssertCheck (merge_cross_chunk_edges edges affs).mapping
        = true := by
      apply mincutAssertCheck_of_nodup (buildMapping_fst_nodup edges affs)
      exact buildMapping_ne_nil affs (redges_ne_nil_edges hred)
    have hnot : ¬((!mincutAssertCheck
        (merge_cross_chunk_edges edges affs).mapping) = true) := by
      rw [hassert]
      simp
    have hany : (components (mincutWorkingEdges edges affs sources sinks)).any
        (badCC (mincutRemappedSources edges affs sources)
          (mincutRemappedSinks edges affs sinks)) = true := by
      rw [List.any_eq_true]
      obtain ⟨cc, hcc, hprop⟩ := h
      exact ⟨cc, hcc, badCC_eq_true_iff.mpr hprop⟩
    rw [if_neg hred, if_neg hnot, if_pos hany]

/-- Witness for C2: the seed scenario S6 — edges = [(1, 2)], affinity 1,
sources = [1], sinks = [99]; the component {1, 2} holds the source but not
the sink, and the mincut result is empty. -/
theorem mincut_disconnected_witness :
    (∃ cc ∈ components (mincutWorkingEdges [(1, 2)] [Aff.fin 1] [1] [99]),
      ((∃ s ∈ mincutRemappedSources [(1, 2)] [Aff.fin 1] [1], s ∈ cc) ∨
        (∃ t ∈ mincutRemappedSinks [(1, 2)] [Aff.fin 1] [99], t ∈ cc)) ∧
      ((∃ s ∈ mincutRemappedSources [(1, 2)] [Aff.fin 1] [1], s ∉ cc) ∨
        (∃ t ∈ mincutRemappedSinks [(1, 2)] [Aff.fin 1] [99], t ∉ cc))) ∧
    mincut [(1, 2)] [Aff.fin 1] [1] [99] = .ok [] :=
  ⟨by decide, mincut_disconnected [(1, 2)] [Aff.fin 1] [1] [99] (by decide)⟩

/-- Claim C3: every edge returned by `mincut` is one of the original
(un-coalesced) input edges; moreover either the returned list is empty (a
short-circuit branch) or a cut set was computed on the coalesced working
graph and an edge is returned exactly when it lies in the expansion of some
cut edge through the remapping (Cartesian products of the two sides, both
orderings) and occurs among the original edges. -/
theorem mincut_uncoalesce (edges : List (ℕ × ℕ)) (affs : List Aff)
    (sources sinks : List ℕ) (l : List (ℕ × ℕ))
    (h : mincut edges affs sources sinks = .ok l) :
    (∀ e ∈ l, e ∈ edges) ∧
    (l = [] ∨ ∃ cs, mincutCutset edges affs sources sinks = some cs ∧
      ∀ e, (e ∈ l ↔
        e ∈ cs.flatMap (expandCut (merge_cross_chunk_edges edges affs).remapping) ∧
        e ∈ edges)) := by
  unfold mincut at h
  by_cases h1 : (merge_cross_chunk_edges edges affs).redges = []
  · rw [if_pos h1] at h
    injection h with h2
    subst h2
    exact ⟨fun e he => absurd he (List.not_mem_nil e), Or.inl rfl⟩
  · rw [if_neg h1] at h
    have hassert : mincutAssertCheck (merge_cross_chunk_edges edges affs).mapping
        = true := by
      apply mincutAssertCheck_of_nodup (buildMapping_fst_nodup edges affs)
      exact buildMapping_ne_nil affs (redges_ne_nil_edges h1)
    have hnot : ¬((!mincutAssertCheck
        (merge_cross_chunk_edges edges affs).mapping) = true) := by
      rw [hassert]
      simp
    rw [if_neg hnot] at h
    by_cases h3 : (components (mincutWorkingEdges edges affs sources sinks)).any
        (badCC (mincutRemappedSources edges affs sources)
          (mincutRemappedSinks edges affs sinks)) = true
    · rw [if_pos h3] at h
      injection h with h2
      subst h2
      exact ⟨fun e he => absurd he (List.not_mem_nil e), Or.inl rfl⟩
    · rw [if_neg h3] at h
      rcases hso : mincutRemappedSources edges affs sources with _ | ⟨s, ss⟩
      · rw [hso] at h
        exact MincutOutcome.noConfusion h
      · rcases hsi : mincutRemappedSinks edges affs sinks with _ | ⟨t, ts⟩
        · rw [hso, hsi] at h
          exact MincutOutcome.noConfusion h
        · rw [hso, hsi] at h
          change (if s = t then MincutOutcome.exc "NetworkXError"
            else mincutFinish (merge_cross_chunk_edges edges affs).remapping edges
              (minimumEdgeCut (mincutPrunedEdges edges affs sources sinks)
                (mincutCapacity edges affs sources sinks) s t)) =
            MincutOutcome.ok l at h
          by_cases hst : s = t
          · rw [if_pos hst] at h
            exact MincutOutcome.noConfusion h
          · rw [if_neg hst] at h
            rcases hmc : minimumEdgeCut (mincutPrunedEdges edges affs sources sinks)
                (mincutCapacity edges affs sources sinks) s t with _ | cs
            · rw [hmc] at h
              injection h with h2
              subst h2
              exact ⟨fun e he => absurd he (List.not_mem_nil e), Or.inl rfl⟩
            · rw [hmc] at h
              cases cs with
              | nil => exact MincutOutcome.noConfusion h
              | cons c cs' =>
                  injection h with h2
                  subst h2
                  constructor
                  · intro e he
                    have := (List.mem_filter.mp he).2
                    simpa using this
                  · refine Or.inr ⟨c :: cs', ?_, ?_⟩
                    · unfold mincutCutset
                      rw [hso, hsi]
                      change (if s = t then none
                        else minimumEdgeCut (mincutPrunedEdges edges affs sources sinks)
                          (mincutCapacity edges affs sources sinks) s t) = _
                      rw [if_neg hst]
                      exact hmc
                    · intro e
                      unfold uncoalesceCutset
                      rw [List.mem_filter]
                      simp

/-- Witness for C3: the seed scenario S3 — the cut of the coalesced chain
expands back to the original edge (2, 3), which is among the input edges. -/
theorem mincut_uncoalesce_witness :
    mincut [(1, 2), (2, 3), (3, 4)] [Aff.inf, Aff.fin 5, Aff.inf] [1] [4] =
      .ok [(2, 3)] ∧
    ∀ e ∈ [((2:ℕ), (3:ℕ))], e ∈ [((1:ℕ), (2:ℕ)), (2, 3), (3, 4)] :=
  ⟨by decide,
    (mincut_uncoalesce [(1, 2), (2, 3), (3, 4)] [Aff.inf, Aff.fin 5, Aff.inf]
      [1] [4] [(2, 3)] (by decide)).1⟩

/-- Claim C4 counterexample: for edges = [(1, 2)] with affinity 1,
sources = [1, 2] and sinks = [3], the weighted edge (1, 2) joins two
remapped sources, and its capacity in the working graph is `float_max`
(the source-source fusion overwrote it, cutting.py lines 123-125) — not its
affinity 1.  The claim that every weighted edge carries capacity equal to
its affinity is therefore false. -/
theorem mincut_capacity_counterexample :
    mincutCapacity [(1, 2)] [Aff.fin 1] [1, 2] [3] (1, 2) = float_max ∧
    ¬ mincutCapacity [(1, 2)] [Aff.fin 1] [1, 2] [3] (1, 2) = (Aff.fin 1).finVal := by
  constructor
  · decide
  · decide

/-- Claim C4 (amended): in the working graph built by `mincut`, every pair
of remapped sources and every pair of remapped sinks is joined by an edge of
capacity `float_max` (`np.finfo(np.float32).max`), and a weighted edge whose
endpoint pair is neither a source-source nor a sink-sink pair — and that is
the last weighted edge with those endpoints — carries capacity equal to its
affinity. -/
theorem mincut_capacity_correct (edges : List (ℕ × ℕ)) (affs : List Aff)
    (sources sinks : List ℕ) :
    (∀ p, p ∈ productPairs (mincutRemappedSources edges affs sources) ∨
        p ∈ productPairs (mincutRemappedSinks edges affs sinks) →
      mincutCapacity edges affs sources sinks p = float_max) ∧
    (∀ i (hi : i < (merge_cross_chunk_edges edges affs).redges.length)
        (hi' : i < (merge_cross_chunk_edges edges affs).raffs.length),
      normPair ((merge_cross_chunk_edges edges affs).redges.get ⟨i, hi⟩) ∉
        (productPairs (mincutRemappedSources edges affs sources)).map normPair →
      normPair ((merge_cross_chunk_edges edges affs).redges.get ⟨i, hi⟩) ∉
        (productPairs (mincutRemappedSinks edges affs sinks)).map normPair →
      (∀ j (hj : j < (merge_cross_chunk_edges edges affs).redges.length), i < j →
        normPair ((merge_cross_chunk_edges edges affs).redges.get ⟨j, hj⟩) ≠
          normPair ((merge_cross_chunk_edges edges affs).redges.get ⟨i, hi⟩)) →
      mincutCapacity edges affs sources sinks
          ((merge_cross_chunk_edges edges affs).redges.get ⟨i, hi⟩) =
        ((merge_cross_chunk_edges edges affs).raffs.get ⟨i, hi'⟩).finVal) := by
  have hlen : (merge_cross_chunk_edges edges affs).raffs.length =
      (merge_cross_chunk_edges edges affs).redges.length := by
    show ((weightedPairs edges affs).map Prod.snd).length =
      ((weightedPairs edges affs).map _).length
    rw [List.length_map, List.length_map]
  constructor
  · intro p hp
    exact capLookup_terminal hp
  · intro i hi hi' hso hsi hlast
    have := capLookup_weighted hi hlen hso hsi hlast
    rw [mincutCapacity, this]

/-- Witness for the amended C4: a weighted edge that joins no two terminals
keeps its affinity 2 as capacity. -/
theorem mincut_capacity_correct_witness :
    mincutCapacity [(1, 2)] [Aff.fin 2] [1] [2] (1, 2) = (2 : ℚ) := by
  have h := (mincut_capacity_correct [(1, 2)] [Aff.fin 2] [1] [2]).2 0
    (by decide) (by decide) (by decide) (by decide)
    (by
      intro j hj h0
      rw [show (merge_cross_chunk_edges [(1, 2)] [Aff.fin 2]).redges.length = 1
        from rfl] at hj
      omega)
  exact h

/-- Claim C6 counterexample: an edit result whose `new_root_ids` is an empty
(but present) array is returned normally by the merge handler — publishing,
since `new_lvl2_ids` is nonempty — instead of raising `InternalServerError`:
the handler only checks `new_root_ids is None` (common.py line 381). -/
theorem handle_merge_empty_roots_counterexample :
    handle_merge (.ok ⟨7, some [], [9]⟩) = .ok (⟨7, some [], [9]⟩, true) := rfl

/-- Claim C6 (amended): when the edit result's `new_root_ids` is `None`, the
merge and split handlers raise `InternalServerError` instead of returning
the result. -/
theorem handle_edit_none_roots (ret : EditResult) (h : ret.new_root_ids = none) :
    handle_merge (.ok ret) =
      .error (.internalServerError "Could not merge selected supervoxel.") ∧
    handle_split (.ok ret) =
      .error (.internalServerError "Could not split selected segment groups.") := by
  simp only [handle_merge, handle_split]
  rw [if_pos h, if_pos h]
  exact ⟨rfl, rfl⟩

/-- Witness for the amended C6 at a concrete result with `None` roots. -/
theorem handle_edit_none_roots_witness :
    (⟨3, none, []⟩ : EditResult).new_root_ids = none ∧
    handle_merge (.ok ⟨3, none, []⟩) =
      .error (.internalServerError "Could not merge selected supervoxel.") :=
  ⟨rfl, (handle_edit_none_roots ⟨3, none, []⟩ rfl).1⟩

/-- Claim C7 counterexample: a `LockingError` during merge is converted to
`InternalServerError` (common.py lines 374-377), which is not a client
(`BadRequest`-kind) error. -/
theorem handle_merge_locking_counterexample :
    handle_merge (.error .lockingError) =
      .error (.internalServerError "Could not acquire root lock for merge operation.") ∧
    HandlerErr.isClientError
      (.internalServerError "Could not acquire root lock for merge operation.") = false :=
  ⟨rfl, rfl⟩

/-- Claim C7 (amended): the merge and split handlers convert `LockingError`
to `InternalServerError` and `PreconditionError` to `BadRequest` with the
original message. -/
theorem handle_edit_error_conversion (m : String) :
    handle_merge (.error .lockingError) =
      .error (.internalServerError "Could not acquire root lock for merge operation.") ∧
    handle_split (.error .lockingError) =
      .error (.internalServerError "Could not acquire root lock for split operation.") ∧
    handle_merge (.error (.preconditionError m)) = .error (.badRequest m) ∧
    handle_split (.error (.preconditionError m)) = .error (.badRequest m) :=
  ⟨rfl, rfl, rfl, rfl⟩

/-- Claim C8 counterexample: on the deny-listed table fly_v26, `handle_undo`
rejects with `InternalServerError` ("Undo not supported for this
chunkedgraph table."), which is not an error of the `BadRequest` kind. -/
theorem handle_undo_denylist_counterexample :
    handle_undo "fly_v26" (.ok ⟨1, some [2], [3]⟩) =
      .error (.internalServerError "Undo not supported for this chunkedgraph table.") ∧
    HandlerErr.isClientError
      (.internalServerError "Undo not supported for this chunkedgraph table.") = false :=
  ⟨rfl, rfl⟩

/-- Claim C8 (amended): for table ids fly_v26 and fly_v31 the undo, redo and
rollback handlers reject immediately — uniformly in the edit outcome and the
log, i.e. before any graph lookup or mutation — with `InternalServerError`
stating that the operation is not supported on the table. -/
theorem handle_denylist (t : String) (h : t = "fly_v26" ∨ t = "fly_v31")
    (o : Except EditExc EditResult) (log : List LogEntry) (target : String)
    (startTime : ℕ) (undone : List ℕ) :
    handle_undo t o =
      .error (.internalServerError "Undo not supported for this chunkedgraph table.") ∧
    handle_redo t o =
      .error (.internalServerError "Redo not supported for this chunkedgraph table.") ∧
    handle_rollback t log target startTime undone =
      .error (.internalServerError
        "Rollback not supported for this chunkedgraph table.") := by
  unfold handle_undo handle_redo handle_rollback
  rw [if_pos h, if_pos h, if_pos h]
  exact ⟨rfl, rfl, rfl⟩

/-- Witness for the amended C8 on fly_v31 with an arbitrary concrete
outcome and log. -/
theorem handle_denylist_witness :
    (("fly_v31" : String) = "fly_v26" ∨ ("fly_v31" : String) = "fly_v31") ∧
    handle_undo "fly_v31" (.ok ⟨1, some [2], [3]⟩) =
      .error (.internalServerError "Undo not supported for this chunkedgraph table.") :=
  ⟨Or.inr rfl,
    (handle_denylist "fly_v31" (Or.inr rfl) (.ok ⟨1, some [2], [3]⟩) [] "u" 0 []).1⟩

theorem rollback_filterMap_eq (undone : List ℕ) (target : String) :
    ∀ ops : List (ℕ × ℕ),
      ops.filterMap (fun op => undo_operation undone target op.1) =
        (ops.filter (fun op => decide (op.1 ∉ undone))).map
          (fun op => (target, op.1)) := by
  intro ops
  induction ops with
  | nil => rfl
  | cons o os ih =>
      simp only [List.filterMap_cons, List.filter_cons, undo_operation] at ih ⊢
      by_cases ho : o.1 ∈ undone
      · rw [if_pos ho, if_neg (by simpa using ho)]
        exact ih
      · rw [if_neg ho, if_pos (by simpa using ho), List.map_cons]
        rw [ih]

/-- Claim C9: for a non-deny-listed table, `handle_rollback` reads exactly
the operations of the target user since the start time, processes them
sorted by timestamp in descending order, undoes each in that order while
skipping already-undone entries, and attributes every undo to the target
user (`user_id=target_user_id`, common.py line 571). -/
theorem handle_rollback_correct (t : String) (log : List LogEntry)
    (target : String) (startTime : ℕ) (undone : List ℕ)
    (h1 : t ≠ "fly_v26") (h2 : t ≠ "fly_v31") :
    (∀ p, p ∈ rollback_operations log target startTime ↔
      ∃ e ∈ log, e.userId = target ∧ startTime ≤ e.ts ∧ p = (e.opId, e.ts)) ∧
    List.Sorted (fun a b : ℕ × ℕ => b.2 ≤ a.2)
      (rollback_operations log target startTime) ∧
    handle_rollback t log target startTime undone =
      .ok (((rollback_operations log target startTime).filter
          (fun op => decide (op.1 ∉ undone))).map (fun op => (target, op.1))) := by
  refine ⟨?_, ?_, ?_⟩
  · intro p
    unfold rollback_operations all_user_operations read_log_rows
    rw [(stableSortBy_perm _ _).mem_iff, List.mem_map]
    constructor
    · rintro ⟨e, he, hp⟩
      have he' := List.mem_filter.mp he
      have he'' := (stableSortBy_perm _ _).mem_iff.mp he'.1
      have he3 := List.mem_filter.mp he''
      exact ⟨e, he3.1, by simpa using he'.2, by simpa using he3.2, hp.symm⟩
    · rintro ⟨e, he, hu, hts, hp⟩
      refine ⟨e, ?_, hp.symm⟩
      refine List.mem_filter.mpr ⟨?_, by simpa using hu⟩
      refine (stableSortBy_perm _ _).mem_iff.mpr ?_
      exact List.mem_filter.mpr ⟨he, by simpa using hts⟩
  · have hp := @stableSortBy_pairwise (ℕ × ℕ)
      (fun a b => decide (b.2 ≤ a.2))
      (fun a b h => by
        simp only [decide_eq_false_iff_not, not_le] at h
        simp only [decide_eq_true_eq]
        omega)
      (fun a b c hab hbc => by
        simp only [decide_eq_true_eq] at hab hbc ⊢
        omega)
      (all_user_operations log target startTime)
    exact hp.imp (fun h => by simpa using h)
  · unfold handle_rollback
    rw [if_neg (by simp [h1, h2]), rollback_filterMap_eq]

/-- Witness for C9: one log entry by the target user; the rollback performs
one undo attributed to the target user. -/
theorem handle_rollback_correct_witness :
    (("test" : String) ≠ "fly_v26") ∧
    handle_rollback "test" [⟨1, "u", 5⟩] "u" 0 [] = .ok [("u", 1)] :=
  ⟨by decide,
    ((handle_rollback_correct "test" [⟨1, "u", 5⟩] "u" 0 []
      (by decide) (by decide)).2.2).trans rfl⟩

/-- Claim C10: for every successful merge, split, undo or redo (undo and
redo on a non-deny-listed table), the handler returns the edit result and
publishes the remesh event iff the result's `new_lvl2_ids` is nonempty;
an empty `new_lvl2_ids` returns the result without publishing. -/
theorem handlers_publish_iff (ret : EditResult) (roots : List ℕ)
    (hroots : ret.new_root_ids = some roots) (t : String)
    (h1 : t ≠ "fly_v26") (h2 : t ≠ "fly_v31") :
    (∃ p, handle_merge (.ok ret) = .ok (ret, p) ∧
      (p = true ↔ ret.new_lvl2_ids ≠ [])) ∧
    (∃ p, handle_split (.ok ret) = .ok (ret, p) ∧
      (p = true ↔ ret.new_lvl2_ids ≠ [])) ∧
    (∃ p, handle_undo t (.ok ret) = .ok (ret, p) ∧
      (p = true ↔ ret.new_lvl2_ids ≠ [])) ∧
    (∃ p, handle_redo t (.ok ret) = .ok (ret, p) ∧
      (p = true ↔ ret.new_lvl2_ids ≠ [])) := by
  have hne : ¬ ret.new_root_ids = none := by rw [hroots]; simp
  have hiff : (!ret.new_lvl2_ids.isEmpty) = true ↔ ret.new_lvl2_ids ≠ [] := by
    cases h : ret.new_lvl2_ids <;> simp [h]
  refine ⟨⟨_, ?_, hiff⟩, ⟨_, ?_, hiff⟩, ⟨_, ?_, hiff⟩, ⟨_, ?_, hiff⟩⟩
  · simp only [handle_merge]
    rw [if_neg hne]
  · simp only [handle_split]
    rw [if_neg hne]
  · simp only [handle_undo]
    rw [if_neg (by simp [h1, h2])]
  · simp only [handle_redo]
    rw [if_neg (by simp [h1, h2])]

/-- Witness for C10: a successful merge with a nonempty level-2 id list
returns the result with a publish. -/
theorem handlers_publish_iff_witness :
    (⟨1, some [4], [7]⟩ : EditResult).new_root_ids = some [4] ∧
    ∃ p, handle_merge (.ok ⟨1, some [4], [7]⟩) = .ok (⟨1, some [4], [7]⟩, p) ∧
      (p = true ↔ (⟨1, some [4], [7]⟩ : EditResult).new_lvl2_ids ≠ []) :=
  ⟨rfl, (handlers_publish_iff ⟨1, some [4], [7]⟩ [4] rfl "t"
    (by decide) (by decide)).1⟩
